import Mathlib

/-!
Shallow embedding of `scopeprotocols/EyeWidthMeasurement.cpp` (eye-diagram
width measurement filter).

Modelling conventions:
* `float` / `double` values are modelled as exact rationals (`ℚ`);
* `size_t` is modelled as `ℕ`; the C++ conversion of a (possibly negative)
  rounded `double` to `size_t` is modelled as a two's-complement wrap at
  `2^64` (the observable x86-64 behaviour);
* `int64_t` is modelled as `ℤ` (the claims never exercise int64 overflow);
* the `NAN` scalar and the null waveform pointer are modelled as `Option`s
  with `none` standing for NaN / null.
-/

namespace EyeWidthMeasurement

/-- Stream kinds (the subset of `Stream::STREAM_TYPE_*` this filter touches). -/
inductive StreamType where
  | STREAM_TYPE_ANALOG
  | STREAM_TYPE_ANALOG_SCALAR
  | STREAM_TYPE_EYE
  | STREAM_TYPE_DIGITAL
deriving DecidableEq

/-- A `StreamDescriptor`: the producing channel pointer (`none` = `NULL`)
together with the stream's type as returned by `GetType()`. -/
structure StreamDescriptor where
  m_channel : Option Unit
  streamType : StreamType

/-- Embeds `EyeWidthMeasurement::ValidateChannel(size_t i, StreamDescriptor stream)`. -/
def ValidateChannel (i : ℕ) (stream : StreamDescriptor) : Bool :=
  if stream.m_channel = none then
    false
  else if i = 0 ∧ stream.streamType = StreamType.STREAM_TYPE_EYE then
    true
  else
    false

/-- The eye-raster input of `Refresh`: the `EyeWaveform` fields the
algorithm reads (`GetHeight`, `GetWidth`, `m_uiWidth`, `GetCenterVoltage`,
`GetData` as a row-major buffer) together with the bound input's voltage
range (`m_inputs[0].GetVoltageRange()`). -/
structure EyeInput where
  height : ℕ
  width : ℕ
  m_uiWidth : ℚ
  centerVoltage : ℚ
  voltageRange : ℚ
  data : List ℚ

/-- The raster cell at row `i`, column `x`: `row[x]` where `row = data + i*w`. -/
def EyeInput.cell (d : EyeInput) (i x : ℕ) : ℚ :=
  d.data.getD (i * d.width + x) 0

/-- The bit-error threshold `float ber_max = FLT_EPSILON;` (`FLT_EPSILON = 2^-23`). -/
def berMax : ℚ := 1 / 2 ^ 23

/-- A raster cell counts as occupied when its value exceeds the bit-error
threshold: `row[x] > ber_max`. -/
def occupied (d : EyeInput) (i x : ℕ) : Prop := d.cell i x > berMax

/-- C `round` (round half away from zero), as `ℚ → ℤ`. -/
def roundC (q : ℚ) : ℤ := if 0 ≤ q then ⌊q + 1 / 2⌋ else ⌈q - 1 / 2⌉

/-- Conversion of an integer-valued `double` to `size_t`, modelled as a
two's-complement wrap at `2^64` (what `size_t x = round(...)` does for a
negative rounded value on x86-64). -/
def wrap64 (z : ℤ) : ℕ := (z % 2 ^ 64).toNat

/-- Embeds `float volts_per_row = vrange / din->GetHeight();` -/
def voltsPerRow (d : EyeInput) : ℚ := d.voltageRange / (d.height : ℚ)

/-- Embeds `float volts_at_bottom = din->GetCenterVoltage() - vrange/2;` -/
def voltsAtBottom (d : EyeInput) : ℚ := d.centerVoltage - d.voltageRange / 2

/-- Embeds `size_t bin = round((v - volts_at_bottom) / volts_per_row);`
followed by `bin = min(bin, din->GetHeight()-1);` (size_t arithmetic on
both, so `GetHeight()-1` also wraps when the height is zero). -/
def binFor (d : EyeInput) (v : ℚ) : ℕ :=
  min (wrap64 (roundC ((v - voltsAtBottom d) / voltsPerRow d)))
    (wrap64 ((d.height : ℤ) - 1))

/-- The two filter parameters, "Start Voltage" and "End Voltage". -/
structure Params where
  vstart : ℚ
  vend : ℚ

/-- The swap "Make sure voltages are in the right order" at the top of
`Refresh`. -/
def sortedVolts (p : Params) : ℚ × ℚ :=
  if p.vstart > p.vend then (p.vend, p.vstart) else (p.vstart, p.vend)

def startBin (d : EyeInput) (p : Params) : ℕ := binFor d (sortedVolts p).1

def endBin (d : EyeInput) (p : Params) : ℕ := binFor d (sortedVolts p).2

/-- Embeds `float duration_mv = volts_per_row * 1000;` -/
def durationMv (d : EyeInput) : ℚ := voltsPerRow d * 1000

/-- Embeds `float base_mv = volts_at_bottom * 1000;` -/
def baseMv (d : EyeInput) : ℚ := voltsAtBottom d * 1000

/-- Embeds `double width_fs = 2 * din->m_uiWidth; double fs_per_pixel = width_fs / w;` -/
def fsPerPixel (d : EyeInput) : ℚ := 2 * d.m_uiWidth / (d.width : ℚ)

/-- One iteration of the per-row scan loop, at loop counter `dx`
(`xc` is `xcenter = w/2`; the accumulator is `(cleft, cright)`):
first the check at `x = xcenter - dx`, then the check at `x = xcenter + dx`. -/
def scanBody (d : EyeInput) (i xc : ℕ) (acc : ℤ × ℤ) (dx : ℕ) : ℤ × ℤ :=
  let acc1 :=
    if d.cell i (xc - dx) > berMax then (max acc.1 ((xc - dx : ℕ) : ℤ), acc.2) else acc
  if d.cell i (xc + dx) > berMax then (acc1.1, min acc1.2 ((xc + dx : ℕ) : ℤ)) else acc1

/-- The scanline edge search ("Find the edges of the eye in this scanline"): the loop
`for(int64_t dx = 0; dx < xcenter; dx++)` starting from
`cleft = 0, cright = w-1`; returns `(cleft, cright)`. -/
def rowScan (d : EyeInput) (i : ℕ) : ℤ × ℤ :=
  (List.range (d.width / 2)).foldl (scanBody d i (d.width / 2)) (0, (d.width : ℤ) - 1)

/-- The `cleft` component of one scan-loop iteration. -/
def leftStep (d : EyeInput) (i xc : ℕ) (m : ℤ) (dx : ℕ) : ℤ :=
  if d.cell i (xc - dx) > berMax then max m ((xc - dx : ℕ) : ℤ) else m

/-- The `cright` component of one scan-loop iteration. -/
def rightStep (d : EyeInput) (i xc : ℕ) (m : ℤ) (dx : ℕ) : ℤ :=
  if d.cell i (xc + dx) > berMax then min m ((xc + dx : ℕ) : ℤ) else m

/-- One entry of the sparse output waveform: parallel `m_offsets`,
`m_durations`, `m_samples` entries. -/
structure SparseSample where
  offset : ℤ
  duration : ℤ
  value : ℚ
deriving DecidableEq

/-- The sample pushed for row `i`:
`round(i*duration_mv + base_mv)`, `round(duration_mv)`,
`fs_per_pixel * (cright - cleft)`. -/
def sampleFor (d : EyeInput) (i : ℕ) : SparseSample :=
  { offset := roundC ((i : ℚ) * durationMv d + baseMv d)
    duration := roundC (durationMv d)
    value := fsPerPixel d * (((rowScan d i).2 - (rowScan d i).1 : ℤ) : ℚ) }

/-- The constant `INT64_MAX`, the initial value of `far_left`. -/
def int64Max : ℤ := 2 ^ 63 - 1

/-- The constant `INT64_MIN`, the initial value of `far_right`. -/
def int64Min : ℤ := -2 ^ 63

/-- One iteration of the row loop: update `far_left`, `far_right` and push
the row's sample; the accumulator is `(far_left, far_right, samples)`. -/
def loopStep (d : EyeInput) (acc : ℤ × ℤ × List SparseSample) (i : ℕ) :
    ℤ × ℤ × List SparseSample :=
  (min acc.1 (rowScan d i).1, max acc.2.1 (rowScan d i).2, acc.2.2 ++ [sampleFor d i])

/-- The `far_left` component of one row-loop iteration. -/
def farLeftStep (d : EyeInput) (m : ℤ) (i : ℕ) : ℤ := min m (rowScan d i).1

/-- The `far_right` component of one row-loop iteration. -/
def farRightStep (d : EyeInput) (m : ℤ) (i : ℕ) : ℤ := max m (rowScan d i).2

/-- The rows visited by `for(size_t i = start_bin; i <= end_bin; i++)`
(empty when `start_bin > end_bin`). -/
def scannedRows (d : EyeInput) (p : Params) : List ℕ :=
  List.range' (startBin d p) (endBin d p + 1 - startBin d p)

/-- The valid-input body of `Refresh`: the emitted sparse waveform together
with the scalar `fs_per_pixel * (far_right - far_left)`. -/
def refreshValid (d : EyeInput) (p : Params) : List SparseSample × ℚ :=
  let r := (scannedRows d p).foldl (loopStep d) (int64Max, int64Min, [])
  (r.2.2, fsPerPixel d * ((r.2.1 - r.1 : ℤ) : ℚ))

/-- The two outputs of the filter: stream 0 (`widthslice`, a sparse analog
waveform, `none` = null) and stream 1 (`minwidth`, a scalar, `none` = NaN). -/
structure RefreshOut where
  wave : Option (List SparseSample)
  scalar : Option ℚ
deriving DecidableEq

/-- Embeds `EyeWidthMeasurement::Refresh()`: `din = none` models
`VerifyAllInputsOK(true)` returning false (e.g. an unbound input). -/
def Refresh (din : Option EyeInput) (p : Params) : RefreshOut :=
  match din with
  | none => { wave := none, scalar := none }
  | some d => { wave := some (refreshValid d p).1, scalar := some (refreshValid d p).2 }

/-- What the code computes as `cleft` for row `i`, characterised
declaratively: the rightmost occupied column at or left of the center
column among the scanned columns `1 .. width/2`, defaulting to `0`. -/
def IsClosureLeft (d : EyeInput) (i : ℕ) (c : ℤ) : Prop :=
  (c = 0 ∨ ∃ x : ℕ, c = (x : ℤ) ∧ 1 ≤ x ∧ x ≤ d.width / 2 ∧ occupied d i x) ∧
  ∀ x : ℕ, 1 ≤ x → x ≤ d.width / 2 → occupied d i x → (x : ℤ) ≤ c

/-- What the code computes as `cright` for row `i`, characterised
declaratively: the leftmost occupied column at or right of the center
column among the scanned columns `width/2 .. 2*(width/2) - 1`, defaulting
to `width - 1`. -/
def IsClosureRight (d : EyeInput) (i : ℕ) (c : ℤ) : Prop :=
  (c = (d.width : ℤ) - 1 ∨
    ∃ x : ℕ, c = (x : ℤ) ∧ d.width / 2 ≤ x ∧ x < 2 * (d.width / 2) ∧ occupied d i x) ∧
  ∀ x : ℕ, d.width / 2 ≤ x → x < 2 * (d.width / 2) → occupied d i x → c ≤ (x : ℤ)

/-- The claim's `closure_left`: the rightmost occupied column strictly left
of the center column, initialized to column `0`. -/
def IsClosureLeftStrict (d : EyeInput) (i : ℕ) (c : ℤ) : Prop :=
  (c = 0 ∨ ∃ x : ℕ, x < d.width / 2 ∧ (c = (x : ℤ) ∧ occupied d i x)) ∧
  ∀ x : ℕ, x < d.width / 2 → occupied d i x → (x : ℤ) ≤ c

/-- The claim's `closure_right`: the leftmost occupied column strictly
right of the center column, initialized to the last column `width - 1`. -/
def IsClosureRightStrict (d : EyeInput) (i : ℕ) (c : ℤ) : Prop :=
  (c = (d.width : ℤ) - 1 ∨
    ∃ x : ℕ, (d.width / 2 < x ∧ x < d.width) ∧ (c = (x : ℤ) ∧ occupied d i x)) ∧
  ∀ x : ℕ, d.width / 2 < x → x < d.width → occupied d i x → c ≤ (x : ℤ)

/-! ### Concrete inputs used by counterexamples, failing inputs and witnesses -/

/-- A 1×4 raster whose only occupied column is the center column 2. -/
def eCenter : EyeInput :=
  { height := 1, width := 4, m_uiWidth := 2, centerVoltage := 1 / 2
    voltageRange := 1, data := [0, 0, 1, 0] }

/-- Parameters 0 V / 0 V, selecting exactly row 0 of the 1-row rasters. -/
def pZero : Params := { vstart := 0, vend := 0 }

/-- A 4-row raster, 4 V range centered at 0 V (1 V per row, bottom −2 V). -/
def eClamp : EyeInput :=
  { height := 4, width := 2, m_uiWidth := 1, centerVoltage := 0
    voltageRange := 4, data := [] }

/-- Start voltage −4 V (two rows below the raster bottom), end voltage 0 V. -/
def pLow : Params := { vstart := -4, vend := 0 }

/-- A 4-row raster with 0.5 mV per row (2 mV range), bottom at 0 V. -/
def eFine : EyeInput :=
  { height := 4, width := 2, m_uiWidth := 1, centerVoltage := 1 / 1000
    voltageRange := 1 / 500, data := [] }

/-- Parameters spanning the whole of `eFine`. -/
def pFine : Params := { vstart := 0, vend := 1 / 500 }

/-- A 1×4 raster with every column occupied except the center column 2. -/
def eScenC : EyeInput :=
  { height := 1, width := 4, m_uiWidth := 5, centerVoltage := 1 / 2
    voltageRange := 1, data := [1, 1, 0, 1] }

/-- A 4×4 all-zero raster, 4 V range centered at 0 V. -/
def eZero : EyeInput :=
  { height := 4, width := 4, m_uiWidth := 2, centerVoltage := 0
    voltageRange := 4, data := [0, 0, 0, 0, 0, 0, 0, 0, 0, 0, 0, 0, 0, 0, 0, 0] }

/-- Parameters −1 V … 1 V, selecting rows 1..3 of `eZero`. -/
def pMid : Params := { vstart := -1, vend := 1 }

/-! ### Decomposing the scan loop into its two independent components -/

theorem scanBody_eq (d : EyeInput) (i xc : ℕ) (acc : ℤ × ℤ) (dx : ℕ) :
    scanBody d i xc acc dx = (leftStep d i xc acc.1 dx, rightStep d i xc acc.2 dx) := by
  simp only [scanBody, leftStep, rightStep]
  split_ifs <;> rfl

theorem foldl_scanBody (d : EyeInput) (i xc : ℕ) (l : List ℕ) (a b : ℤ) :
    l.foldl (scanBody d i xc) (a, b) =
      (l.foldl (leftStep d i xc) a, l.foldl (rightStep d i xc) b) := by
  induction l generalizing a b with
  | nil => rfl
  | cons x l ih => simp only [List.foldl_cons, scanBody_eq, ih]

theorem rowScan_eq (d : EyeInput) (i : ℕ) :
    rowScan d i =
      ((List.range (d.width / 2)).foldl (leftStep d i (d.width / 2)) 0,
        (List.range (d.width / 2)).foldl (rightStep d i (d.width / 2)) ((d.width : ℤ) - 1)) :=
  foldl_scanBody d i (d.width / 2) (List.range (d.width / 2)) 0 ((d.width : ℤ) - 1)

theorem le_leftStep (d : EyeInput) (i xc : ℕ) (m : ℤ) (dx : ℕ) :
    m ≤ leftStep d i xc m dx := by
  unfold leftStep
  split_ifs
  · exact le_max_left _ _
  · exact le_refl m

theorem le_foldl_leftStep (d : EyeInput) (i xc : ℕ) (l : List ℕ) (a : ℤ) :
    a ≤ l.foldl (leftStep d i xc) a := by
  induction l generalizing a with
  | nil => exact le_refl a
  | cons x l ih => exact le_trans (le_leftStep d i xc a x) (ih _)

theorem foldl_leftStep_dominates (d : EyeInput) (i xc : ℕ) (l : List ℕ) (a : ℤ) (dx : ℕ)
    (hmem : dx ∈ l) (hocc : d.cell i (xc - dx) > berMax) :
    ((xc - dx : ℕ) : ℤ) ≤ l.foldl (leftStep d i xc) a := by
  induction l generalizing a with
  | nil => cases hmem
  | cons y l ih =>
    rcases List.mem_cons.mp hmem with rfl | hmem
    · refine le_trans ?_ (le_foldl_leftStep d i xc l (leftStep d i xc a dx))
      unfold leftStep
      rw [if_pos hocc]
      exact le_max_right _ _
    · exact ih _ hmem

theorem foldl_leftStep_attained (d : EyeInput) (i xc : ℕ) (l : List ℕ) (a : ℤ) :
    l.foldl (leftStep d i xc) a = a ∨
      ∃ dx ∈ l, d.cell i (xc - dx) > berMax ∧
        l.foldl (leftStep d i xc) a = ((xc - dx : ℕ) : ℤ) := by
  induction l generalizing a with
  | nil => exact Or.inl rfl
  | cons y l ih =>
    rw [List.foldl_cons]
    rcases ih (leftStep d i xc a y) with h | ⟨dx, hdx, hocc, h⟩
    · rw [h]
      unfold leftStep
      split_ifs with hy
      · rcases max_choice a ((xc - y : ℕ) : ℤ) with hm | hm
        · exact Or.inl hm
        · exact Or.inr ⟨y, List.mem_cons_self y l, hy, hm⟩
      · exact Or.inl rfl
    · exact Or.inr ⟨dx, List.mem_cons_of_mem y hdx, hocc, h⟩

theorem rightStep_le (d : EyeInput) (i xc : ℕ) (m : ℤ) (dx : ℕ) :
    rightStep d i xc m dx ≤ m := by
  unfold rightStep
  split_ifs
  · exact min_le_left _ _
  · exact le_refl m

theorem foldl_rightStep_le (d : EyeInput) (i xc : ℕ) (l : List ℕ) (a : ℤ) :
    l.foldl (rightStep d i xc) a ≤ a := by
  induction l generalizing a with
  | nil => exact le_refl a
  | cons x l ih => exact le_trans (ih _) (rightStep_le d i xc a x)

theorem foldl_rightStep_dominates (d : EyeInput) (i xc : ℕ) (l : List ℕ) (a : ℤ) (dx : ℕ)
    (hmem : dx ∈ l) (hocc : d.cell i (xc + dx) > berMax) :
    l.foldl (rightStep d i xc) a ≤ ((xc + dx : ℕ) : ℤ) := by
  induction l generalizing a with
  | nil => cases hmem
  | cons y l ih =>
    rcases List.mem_cons.mp hmem with rfl | hmem
    · refine le_trans (foldl_rightStep_le d i xc l (rightStep d i xc a dx)) ?_
      unfold rightStep
      rw [if_pos hocc]
      exact min_le_right _ _
    · exact ih _ hmem

theorem foldl_rightStep_attained (d : EyeInput) (i xc : ℕ) (l : List ℕ) (a : ℤ) :
    l.foldl (rightStep d i xc) a = a ∨
      ∃ dx ∈ l, d.cell i (xc + dx) > berMax ∧
        l.foldl (rightStep d i xc) a = ((xc + dx : ℕ) : ℤ) := by
  induction l generalizing a with
  | nil => exact Or.inl rfl
  | cons y l ih =>
    rw [List.foldl_cons]
    rcases ih (rightStep d i xc a y) with h | ⟨dx, hdx, hocc, h⟩
    · rw [h]
      unfold rightStep
      split_ifs with hy
      · rcases min_choice a ((xc + y : ℕ) : ℤ) with hm | hm
        · exact Or.inl hm
        · exact Or.inr ⟨y, List.mem_cons_self y l, hy, hm⟩
      · exact Or.inl rfl
    · exact Or.inr ⟨dx, List.mem_cons_of_mem y hdx, hocc, h⟩

/-! ### The scan loop meets the declarative closure characterisations -/

theorem rowScan_closureLeft (d : EyeInput) (i : ℕ) : IsClosureLeft d i (rowScan d i).1 := by
  rw [rowScan_eq]
  dsimp only
  constructor
  · rcases foldl_leftStep_attained d i (d.width / 2) (List.range (d.width / 2)) 0 with
      h | ⟨dx, hdx, hocc, h⟩
    · exact Or.inl h
    · have hdx' : dx < d.width / 2 := List.mem_range.mp hdx
      refine Or.inr ⟨d.width / 2 - dx, h, ?_, ?_, hocc⟩
      · omega
      · omega
  · intro x hx1 hx2 hocc
    have hdx : d.width / 2 - (d.width / 2 - x) = x := by omega
    have hmem : d.width / 2 - x ∈ List.range (d.width / 2) := List.mem_range.mpr (by omega)
    have := foldl_leftStep_dominates d i (d.width / 2) (List.range (d.width / 2)) 0
      (d.width / 2 - x) hmem (by rwa [hdx, ← occupied])
    rwa [hdx] at this

theorem rowScan_closureRight (d : EyeInput) (i : ℕ) : IsClosureRight d i (rowScan d i).2 := by
  rw [rowScan_eq]
  dsimp only
  constructor
  · rcases foldl_rightStep_attained d i (d.width / 2) (List.range (d.width / 2))
      ((d.width : ℤ) - 1) with h | ⟨dx, hdx, hocc, h⟩
    · exact Or.inl h
    · have hdx' : dx < d.width / 2 := List.mem_range.mp hdx
      refine Or.inr ⟨d.width / 2 + dx, h, ?_, ?_, hocc⟩
      · omega
      · omega
  · intro x hx1 hx2 hocc
    have hdx : d.width / 2 + (x - d.width / 2) = x := by omega
    have hmem : x - d.width / 2 ∈ List.range (d.width / 2) := List.mem_range.mpr (by omega)
    have := foldl_rightStep_dominates d i (d.width / 2) (List.range (d.width / 2))
      ((d.width : ℤ) - 1) (x - d.width / 2) hmem (by rwa [hdx, ← occupied])
    rwa [hdx] at this

theorem closureLeft_unique (d : EyeInput) (i : ℕ) (c c' : ℤ)
    (h : IsClosureLeft d i c) (h' : IsClosureLeft d i c') : c = c' := by
  rcases h with ⟨hc, hdom⟩
  rcases h' with ⟨hc', hdom'⟩
  rcases hc with rfl | ⟨x, rfl, hx1, hx2, hocc⟩
  · rcases hc' with rfl | ⟨x', rfl, hx1', hx2', hocc'⟩
    · rfl
    · have := hdom x' hx1' hx2' hocc'
      omega
  · rcases hc' with rfl | ⟨x', rfl, hx1', hx2', hocc'⟩
    · have := hdom' x hx1 hx2 hocc
      omega
    · have h1 := hdom' x hx1 hx2 hocc
      have h2 := hdom x' hx1' hx2' hocc'
      omega

theorem closureRight_unique (d : EyeInput) (i : ℕ) (c c' : ℤ)
    (h : IsClosureRight d i c) (h' : IsClosureRight d i c') : c = c' := by
  rcases h with ⟨hc, hdom⟩
  rcases h' with ⟨hc', hdom'⟩
  rcases hc with rfl | ⟨x, rfl, hx1, hx2, hocc⟩
  · rcases hc' with rfl | ⟨x', rfl, hx1', hx2', hocc'⟩
    · rfl
    · have h1 := hdom x' hx1' hx2' hocc'
      have h2 : x' ≤ 2 * (d.width / 2) - 1 := by omega
      have h3 : 2 * (d.width / 2) ≤ d.width := by omega
      omega
  · rcases hc' with rfl | ⟨x', rfl, hx1', hx2', hocc'⟩
    · have h1 := hdom' x hx1 hx2 hocc
      have h3 : 2 * (d.width / 2) ≤ d.width := by omega
      omega
    · have h1 := hdom' x hx1 hx2 hocc
      have h2 := hdom x' hx1' hx2' hocc'
      omega

/-! ### Decomposing the row loop -/

theorem foldl_loopStep (d : EyeInput) (l : List ℕ) (a b : ℤ) (s : List SparseSample) :
    l.foldl (loopStep d) (a, b, s) =
      (l.foldl (farLeftStep d) a, l.foldl (farRightStep d) b, s ++ l.map (sampleFor d)) := by
  induction l generalizing a b s with
  | nil => simp
  | cons x l ih =>
    simp only [List.foldl_cons, loopStep, List.map_cons, ih, farLeftStep, farRightStep,
      List.append_assoc, List.singleton_append]

theorem refreshValid_samples (d : EyeInput) (p : Params) :
    (refreshValid d p).1 = (scannedRows d p).map (sampleFor d) := by
  simp [refreshValid, foldl_loopStep]

theorem refreshValid_scalar (d : EyeInput) (p : Params) :
    (refreshValid d p).2 =
      fsPerPixel d *
        (((scannedRows d p).foldl (farRightStep d) int64Min -
          (scannedRows d p).foldl (farLeftStep d) int64Max : ℤ) : ℚ) := by
  simp [refreshValid, foldl_loopStep]

theorem foldl_farLeftStep_le_init (d : EyeInput) (l : List ℕ) (a : ℤ) :
    l.foldl (farLeftStep d) a ≤ a := by
  induction l generalizing a with
  | nil => exact le_refl a
  | cons x l ih => exact le_trans (ih _) (min_le_left _ _)

theorem foldl_farLeftStep_le_mem (d : EyeInput) (l : List ℕ) (a : ℤ) (i : ℕ) (h : i ∈ l) :
    l.foldl (farLeftStep d) a ≤ (rowScan d i).1 := by
  induction l generalizing a with
  | nil => cases h
  | cons y l ih =>
    rcases List.mem_cons.mp h with rfl | h
    · exact le_trans (foldl_farLeftStep_le_init d l (farLeftStep d a i)) (min_le_right _ _)
    · exact ih _ h

theorem foldl_farLeftStep_attained (d : EyeInput) (l : List ℕ) (a : ℤ) :
    l.foldl (farLeftStep d) a = a ∨ ∃ i ∈ l, l.foldl (farLeftStep d) a = (rowScan d i).1 := by
  induction l generalizing a with
  | nil => exact Or.inl rfl
  | cons y l ih =>
    rw [List.foldl_cons]
    rcases ih (farLeftStep d a y) with h | ⟨i, hi, h⟩
    · rw [h]
      rcases min_choice a (rowScan d y).1 with hm | hm
      · exact Or.inl hm
      · exact Or.inr ⟨y, List.mem_cons_self y l, hm⟩
    · exact Or.inr ⟨i, List.mem_cons_of_mem y hi, h⟩

theorem le_foldl_farRightStep_init (d : EyeInput) (l : List ℕ) (a : ℤ) :
    a ≤ l.foldl (farRightStep d) a := by
  induction l generalizing a with
  | nil => exact le_refl a
  | cons x l ih => exact le_trans (le_max_left _ _) (ih _)

theorem le_foldl_farRightStep_mem (d : EyeInput) (l : List ℕ) (a : ℤ) (i : ℕ) (h : i ∈ l) :
    (rowScan d i).2 ≤ l.foldl (farRightStep d) a := by
  induction l generalizing a with
  | nil => cases h
  | cons y l ih =>
    rcases List.mem_cons.mp h with rfl | h
    · exact le_trans (le_max_right _ _) (le_foldl_farRightStep_init d l (farRightStep d a i))
    · exact ih _ h

theorem foldl_farRightStep_attained (d : EyeInput) (l : List ℕ) (a : ℤ) :
    l.foldl (farRightStep d) a = a ∨ ∃ i ∈ l, l.foldl (farRightStep d) a = (rowScan d i).2 := by
  induction l generalizing a with
  | nil => exact Or.inl rfl
  | cons y l ih =>
    rw [List.foldl_cons]
    rcases ih (farRightStep d a y) with h | ⟨i, hi, h⟩
    · rw [h]
      rcases max_choice a (rowScan d y).2 with hm | hm
      · exact Or.inl hm
      · exact Or.inr ⟨y, List.mem_cons_self y l, hm⟩
    · exact Or.inr ⟨i, List.mem_cons_of_mem y hi, h⟩

/-! ### Bounds on the per-row scan results -/

theorem rowScan_fst_lt_int64Max (d : EyeInput) (i : ℕ) (hw : d.width < 2 ^ 63) :
    (rowScan d i).1 < int64Max := by
  rcases (rowScan_closureLeft d i).1 with h | ⟨x, hx, hx1, hx2, _⟩
  · rw [h]; unfold int64Max; omega
  · rw [hx]; unfold int64Max
    have : x ≤ d.width / 2 := hx2
    omega

theorem int64Min_lt_rowScan_snd (d : EyeInput) (i : ℕ) :
    int64Min < (rowScan d i).2 := by
  rcases (rowScan_closureRight d i).1 with h | ⟨x, hx, hx1, hx2, _⟩
  · rw [h]; unfold int64Min; omega
  · rw [hx]; unfold int64Min; omega

/-! ### Membership in the scanned-rows list -/

theorem mem_scannedRows (d : EyeInput) (p : Params) (h : startBin d p ≤ endBin d p) (i : ℕ) :
    i ∈ scannedRows d p ↔ startBin d p ≤ i ∧ i ≤ endBin d p := by
  unfold scannedRows
  rw [List.mem_range'_1]
  omega

/-! ### Monotonicity of the C rounding function -/

theorem roundC_mono (a b : ℚ) (h : a ≤ b) : roundC a ≤ roundC b := by
  unfold roundC
  split_ifs with ha hb hb
  · exact Int.floor_le_floor (by linarith)
  · linarith
  · have h1 : (⌈a - 1 / 2⌉ : ℤ) ≤ 0 := by
      refine Int.ceil_le.mpr ?_
      push_cast
      push_neg at ha
      linarith
    have h2 : (0 : ℤ) ≤ ⌊b + 1 / 2⌋ := by
      refine Int.le_floor.mpr ?_
      push_cast
      linarith
    omega
  · exact Int.ceil_le_ceil (by linarith)

/-! ### Concrete evaluations -/

theorem binFor_eval (d : EyeInput) (v : ℚ) (z : ℤ) (n : ℕ)
    (hz : roundC ((v - voltsAtBottom d) / voltsPerRow d) = z)
    (hn : min (wrap64 z) (wrap64 ((d.height : ℤ) - 1)) = n) :
    binFor d v = n := by
  unfold binFor
  rw [hz, hn]

theorem startBin_eClamp : startBin eClamp pLow = 3 := by
  have h1 : sortedVolts pLow = (-4, 0) := by
    norm_num [sortedVolts, pLow]
  unfold startBin
  rw [h1]
  exact binFor_eval eClamp (-4) (-2) 3
    (by norm_num [roundC, voltsAtBottom, voltsPerRow, eClamp, Int.ceil_eq_iff])
    (by decide)

theorem endBin_eClamp : endBin eClamp pLow = 2 := by
  have h1 : sortedVolts pLow = (-4, 0) := by
    norm_num [sortedVolts, pLow]
  unfold endBin
  rw [h1]
  exact binFor_eval eClamp 0 2 2
    (by norm_num [roundC, voltsAtBottom, voltsPerRow, eClamp])
    (by decide)

theorem scannedRows_eClamp : scannedRows eClamp pLow = [] := by
  unfold scannedRows
  rw [startBin_eClamp, endBin_eClamp]
  rfl

theorem binFor_eClamp_low : binFor eClamp (-4) = 3 :=
  binFor_eval eClamp (-4) (-2) 3
    (by norm_num [roundC, voltsAtBottom, voltsPerRow, eClamp, Int.ceil_eq_iff])
    (by decide)

theorem voltsAtBottom_eClamp : voltsAtBottom eClamp = -2 := by
  norm_num [voltsAtBottom, eClamp]

theorem startBin_eCenter : startBin eCenter pZero = 0 := by
  have h1 : sortedVolts pZero = (0, 0) := by
    norm_num [sortedVolts, pZero]
  unfold startBin
  rw [h1]
  exact binFor_eval eCenter 0 0 0
    (by norm_num [roundC, voltsAtBottom, voltsPerRow, eCenter])
    (by decide)

theorem endBin_eCenter : endBin eCenter pZero = 0 := by
  have h1 : sortedVolts pZero = (0, 0) := by
    norm_num [sortedVolts, pZero]
  unfold endBin
  rw [h1]
  exact binFor_eval eCenter 0 0 0
    (by norm_num [roundC, voltsAtBottom, voltsPerRow, eCenter])
    (by decide)

theorem scannedRows_eCenter : scannedRows eCenter pZero = [0] := by
  unfold scannedRows
  rw [startBin_eCenter, endBin_eCenter]
  rfl

theorem rowScan_eCenter : rowScan eCenter 0 = (2, 2) := by
  norm_num [rowScan, eCenter, show List.range 2 = [0, 1] from rfl,
    List.foldl_cons, List.foldl_nil, scanBody, EyeInput.cell, berMax]

theorem samples_eCenter :
    (refreshValid eCenter pZero).1 = [{ offset := 0, duration := 1000, value := 0 }] := by
  rw [refreshValid_samples, scannedRows_eCenter]
  simp only [List.map_cons, List.map_nil, sampleFor, rowScan_eCenter]
  norm_num [durationMv, baseMv, voltsPerRow, voltsAtBottom, fsPerPixel, roundC, eCenter]

theorem startBin_eFine : startBin eFine pFine = 0 := by
  have h1 : sortedVolts pFine = (0, 1 / 500) := by
    norm_num [sortedVolts, pFine]
  unfold startBin
  rw [h1]
  exact binFor_eval eFine 0 0 0
    (by norm_num [roundC, voltsAtBottom, voltsPerRow, eFine])
    (by decide)

theorem endBin_eFine : endBin eFine pFine = 3 := by
  have h1 : sortedVolts pFine = (0, 1 / 500) := by
    norm_num [sortedVolts, pFine]
  unfold endBin
  rw [h1]
  exact binFor_eval eFine (1 / 500) 4 3
    (by norm_num [roundC, voltsAtBottom, voltsPerRow, eFine])
    (by decide)

theorem scannedRows_eFine : scannedRows eFine pFine = [0, 1, 2, 3] := by
  unfold scannedRows
  rw [startBin_eFine, endBin_eFine]
  rfl

theorem offsets_eFine :
    (refreshValid eFine pFine).1.map SparseSample.offset = [0, 1, 1, 2] := by
  rw [refreshValid_samples, scannedRows_eFine]
  simp only [List.map_cons, List.map_nil, sampleFor]
  norm_num [durationMv, baseMv, voltsPerRow, voltsAtBottom, roundC, eFine]

theorem startBin_eScenC : startBin eScenC pZero = 0 := by
  have h1 : sortedVolts pZero = (0, 0) := by
    norm_num [sortedVolts, pZero]
  unfold startBin
  rw [h1]
  exact binFor_eval eScenC 0 0 0
    (by norm_num [roundC, voltsAtBottom, voltsPerRow, eScenC])
    (by decide)

theorem endBin_eScenC : endBin eScenC pZero = 0 := by
  have h1 : sortedVolts pZero = (0, 0) := by
    norm_num [sortedVolts, pZero]
  unfold endBin
  rw [h1]
  exact binFor_eval eScenC 0 0 0
    (by norm_num [roundC, voltsAtBottom, voltsPerRow, eScenC])
    (by decide)

theorem scannedRows_eScenC : scannedRows eScenC pZero = [0] := by
  unfold scannedRows
  rw [startBin_eScenC, endBin_eScenC]
  rfl

theorem rowScan_eScenC : rowScan eScenC 0 = (1, 3) := by
  norm_num [rowScan, eScenC, show List.range 2 = [0, 1] from rfl,
    List.foldl_cons, List.foldl_nil, scanBody, EyeInput.cell, berMax]

theorem fsPerPixel_eScenC : fsPerPixel eScenC = 5 / 2 := by
  norm_num [fsPerPixel, eScenC]

theorem scalar_eScenC : (refreshValid eScenC pZero).2 = 5 := by
  rw [refreshValid_scalar, scannedRows_eScenC]
  simp only [List.foldl_cons, List.foldl_nil, farLeftStep, farRightStep, rowScan_eScenC]
  have h1 : min int64Max (1 : ℤ) = 1 := by decide
  have h2 : max int64Min (3 : ℤ) = 3 := by decide
  rw [h1, h2, fsPerPixel_eScenC]
  norm_num

theorem startBin_eZero : startBin eZero pMid = 1 := by
  have h1 : sortedVolts pMid = (-1, 1) := by
    norm_num [sortedVolts, pMid]
  unfold startBin
  rw [h1]
  exact binFor_eval eZero (-1) 1 1
    (by norm_num [roundC, voltsAtBottom, voltsPerRow, eZero])
    (by decide)

theorem endBin_eZero : endBin eZero pMid = 3 := by
  have h1 : sortedVolts pMid = (-1, 1) := by
    norm_num [sortedVolts, pMid]
  unfold endBin
  rw [h1]
  exact binFor_eval eZero 1 3 3
    (by norm_num [roundC, voltsAtBottom, voltsPerRow, eZero])
    (by decide)

/-! ### Parameter-order normalisation -/

theorem sortedVolts_swap (a b : ℚ) :
    sortedVolts { vstart := a, vend := b } = sortedVolts { vstart := b, vend := a } := by
  simp only [sortedVolts]
  split_ifs with h1 h2 h2
  · exact absurd h1 (asymm h2)
  · rfl
  · rfl
  · rw [le_antisymm (not_lt.mp h2) (not_lt.mp h1)]

/-- Claim C8: `Refresh` is commutative in its two threshold parameters:
running it with Start Voltage `a`, End Voltage `b` produces outputs
identical to running it with Start Voltage `b`, End Voltage `a`, because
the voltages are sorted into ascending order internally. -/
theorem refresh_param_comm (din : Option EyeInput) (a b : ℚ) :
    Refresh din { vstart := a, vend := b } = Refresh din { vstart := b, vend := a } := by
  cases din with
  | none => rfl
  | some d =>
    have h := sortedVolts_swap a b
    simp only [Refresh, refreshValid, scannedRows, startBin, endBin, h]

/-- Claim C6: when the input-validity precondition fails
(`VerifyAllInputsOK` is false, modelled by a `none` input), `Refresh` sets
the waveform output to null, the scalar output to NaN (modelled `none`),
and returns without computing anything from input data. -/
theorem refresh_invalid_input (p : Params) :
    Refresh none p = { wave := none, scalar := none } := rfl

/-- Claim C7: `ValidateChannel` is a total (never-throwing) predicate that
returns false for a null channel and accepts exactly input index 0 with an
eye-typed stream. -/
theorem validateChannel_spec (i : ℕ) (s : StreamDescriptor) :
    ValidateChannel i s = true ↔
      s.m_channel ≠ none ∧ i = 0 ∧ s.streamType = StreamType.STREAM_TYPE_EYE := by
  unfold ValidateChannel
  split_ifs with h1 h2
  · simp [h1]
  · simp [h1, h2]
  · simpa [h1] using h2

/-- Claim C3 (code bug): with start voltage −4 V on a raster whose bottom
is −2 V (and end voltage 0 V, so the sorted order is already ascending),
the negative rounded row index wraps through `size_t` and clamps to
`height − 1 = 3`, giving `start_bin = 3 > 2 = end_bin`; no row is scanned. -/
theorem start_bin_exceeds_end_bin :
    sortedVolts pLow = (-4, 0) ∧
    startBin eClamp pLow = 3 ∧
    endBin eClamp pLow = 2 ∧
    ¬ startBin eClamp pLow ≤ endBin eClamp pLow ∧
    scannedRows eClamp pLow = [] := by
  refine ⟨by norm_num [sortedVolts, pLow], startBin_eClamp, endBin_eClamp, ?_,
    scannedRows_eClamp⟩
  rw [startBin_eClamp, endBin_eClamp]
  omega

/-- Claim C4 (code bug): a voltage below the bottom of the raster
(−4 V against a bottom of −2 V) does not map to row 0: the negative
rounded index wraps through `size_t` and the `min` clamp then yields the
top row `height − 1 = 3`. -/
theorem below_bottom_clamps_to_top :
    voltsAtBottom eClamp = -2 ∧
    (-4 : ℚ) < voltsAtBottom eClamp ∧
    binFor eClamp (-4) = eClamp.height - 1 ∧
    eClamp.height - 1 = 3 ∧
    binFor eClamp (-4) ≠ 0 := by
  refine ⟨voltsAtBottom_eClamp, ?_, ?_, rfl, ?_⟩
  · rw [voltsAtBottom_eClamp]
    norm_num
  · rw [binFor_eClamp_low]
    rfl
  · rw [binFor_eClamp_low]
    omega

/-- Counterexample to claim C1 as stated: on a raster whose only occupied
column is the center column, `Refresh` emits the row width `0`, while the
claim's formula — closure points strictly left/right of center, here the
initial values `0` and `width − 1 = 3` — would give `3 × time_per_column
= 3 ≠ 0`: the code's scan includes the center column itself (`dx` starts
at 0). -/
theorem row_width_strict_cex :
    IsClosureLeftStrict eCenter 0 0 ∧
    IsClosureRightStrict eCenter 0 3 ∧
    (refreshValid eCenter pZero).1 = [{ offset := 0, duration := 1000, value := 0 }] ∧
    fsPerPixel eCenter * ((3 - 0 : ℤ) : ℚ) = 3 ∧
    (0 : ℚ) ≠ 3 := by
  refine ⟨⟨Or.inl rfl, ?_⟩, ⟨Or.inl (by norm_num [eCenter]), ?_⟩, samples_eCenter,
    by norm_num [fsPerPixel, eCenter], by norm_num⟩
  · intro x hx hocc
    have hx' : x < 2 := by simpa [eCenter] using hx
    interval_cases x <;> norm_num [occupied, EyeInput.cell, eCenter, berMax] at hocc
  · intro x hx1 hx2 _
    have h1 : (2 : ℕ) < x := by simpa [eCenter] using hx1
    have h2 : x < 4 := by simpa [eCenter] using hx2
    omega

theorem eScenC_occupied : ∀ x, x < eScenC.width → x ≠ eScenC.width / 2 →
    occupied eScenC 0 x := by
  intro x hx hne
  have hx' : x < 4 := by simpa [eScenC] using hx
  have hne' : x ≠ 2 := by simpa [eScenC] using hne
  interval_cases x
  · norm_num [occupied, EyeInput.cell, eScenC, berMax]
  · norm_num [occupied, EyeInput.cell, eScenC, berMax]
  · exact absurd rfl hne'
  · norm_num [occupied, EyeInput.cell, eScenC, berMax]

theorem eScenC_center_not : ¬ occupied eScenC 0 (eScenC.width / 2) := by
  norm_num [occupied, EyeInput.cell, eScenC, berMax]

/-- Counterexample to claim C9 as stated: on a raster where every column
except the center one is occupied, the per-row opening is `cright − cleft
= 2` columns (not 1), and the scalar output is two columns' time width
(not one): the nearest occupied columns flanking the empty center are
`center − 1` and `center + 1`. -/
theorem all_but_center_cex :
    (∀ x, x < eScenC.width → x ≠ eScenC.width / 2 → occupied eScenC 0 x) ∧
    ¬ occupied eScenC 0 (eScenC.width / 2) ∧
    rowScan eScenC 0 = (1, 3) ∧
    ((rowScan eScenC 0).2 - (rowScan eScenC 0).1 : ℤ) ≠ 1 ∧
    (refreshValid eScenC pZero).2 = 2 * fsPerPixel eScenC ∧
    (refreshValid eScenC pZero).2 ≠ fsPerPixel eScenC := by
  refine ⟨eScenC_occupied, eScenC_center_not, rowScan_eScenC, ?_, ?_, ?_⟩
  · rw [rowScan_eScenC]
    decide
  · rw [scalar_eScenC, fsPerPixel_eScenC]
    norm_num
  · rw [scalar_eScenC, fsPerPixel_eScenC]
    norm_num

/-- Counterexample to claim C5 as stated: with half a millivolt per row,
consecutive emitted offsets `round(i × 0.5 mV)` repeat (`[0, 1, 1, 2]`),
so the samples are not strictly ordered by offset, even though the sample
count `end_bin − start_bin + 1 = 4` is as claimed. -/
theorem sparse_offsets_not_strict :
    startBin eFine pFine = 0 ∧
    endBin eFine pFine = 3 ∧
    (refreshValid eFine pFine).1.length = endBin eFine pFine - startBin eFine pFine + 1 ∧
    (refreshValid eFine pFine).1.map SparseSample.offset = [0, 1, 1, 2] ∧
    ¬ List.Pairwise (fun a b : ℤ => a < b)
      ((refreshValid eFine pFine).1.map SparseSample.offset) := by
  refine ⟨startBin_eFine, endBin_eFine, ?_, offsets_eFine, ?_⟩
  · rw [refreshValid_samples, scannedRows_eFine, startBin_eFine, endBin_eFine]
    rfl
  · rw [offsets_eFine]
    decide

/-- Claim C1 (amended): for every scanned row `i`, the emitted sample value
is `(closure_right − closure_left) × (2 × unit_interval_width / width)`,
where `closure_left` is the rightmost occupied column at or left of the
center among columns `1..width/2` (initialized to 0) and `closure_right`
is the leftmost occupied column at or right of the center among columns
`width/2..2*(width/2)-1` (initialized to `width−1`); an occupied center
column bounds the opening on both sides. -/
theorem row_width_closure (d : EyeInput) (p : Params) (i : ℕ)
    (h1 : startBin d p ≤ i) (h2 : i ≤ endBin d p) :
    ∃ cl cr : ℤ, IsClosureLeft d i cl ∧ IsClosureRight d i cr ∧
      ((refreshValid d p).1.getD (i - startBin d p)
        { offset := 0, duration := 0, value := 0 }).value
        = 2 * d.m_uiWidth / (d.width : ℚ) * ((cr - cl : ℤ) : ℚ) := by
  refine ⟨(rowScan d i).1, (rowScan d i).2, rowScan_closureLeft d i,
    rowScan_closureRight d i, ?_⟩
  rw [refreshValid_samples]
  unfold scannedRows
  have hk : i - startBin d p < endBin d p + 1 - startBin d p := by omega
  have hlen : i - startBin d p <
      ((List.range' (startBin d p) (endBin d p + 1 - startBin d p)).map (sampleFor d)).length := by
    rw [List.length_map, List.length_range']
    exact hk
  rw [List.getD_eq_getElem _ _ hlen, List.getElem_map, List.getElem_range']
  have hidx : startBin d p + 1 * (i - startBin d p) = i := by omega
  rw [hidx]
  rfl

/-- Witness for C1 at a concrete input: row 1 of the all-zero raster. -/
theorem row_width_closure_witness :
    startBin eZero pMid ≤ 1 ∧ 1 ≤ endBin eZero pMid ∧
    (∃ cl cr : ℤ, IsClosureLeft eZero 1 cl ∧ IsClosureRight eZero 1 cr ∧
      ((refreshValid eZero pMid).1.getD (1 - startBin eZero pMid)
        { offset := 0, duration := 0, value := 0 }).value
        = 2 * eZero.m_uiWidth / (eZero.width : ℚ) * ((cr - cl : ℤ) : ℚ)) := by
  have h1 : startBin eZero pMid ≤ 1 := by
    rw [startBin_eZero]
  have h2 : (1 : ℕ) ≤ endBin eZero pMid := by
    rw [endBin_eZero]
    omega
  exact ⟨h1, h2, row_width_closure eZero pMid 1 h1 h2⟩

/-- Claim C2: the scalar `minwidth` output equals
`(max_closure_right − min_closure_left) × time_per_column`, where the
maximum of `cright` and the minimum of `cleft` range over all scanned rows
(an envelope, possibly from different rows). -/
theorem scalar_is_envelope (d : EyeInput) (p : Params)
    (h : startBin d p ≤ endBin d p) (hw : d.width < 2 ^ 63) :
    ∃ FL FR : ℤ,
      IsLeast {z : ℤ | ∃ i : ℕ, startBin d p ≤ i ∧ i ≤ endBin d p ∧ z = (rowScan d i).1} FL ∧
      IsGreatest {z : ℤ | ∃ i : ℕ, startBin d p ≤ i ∧ i ≤ endBin d p ∧ z = (rowScan d i).2} FR ∧
      (refreshValid d p).2 = fsPerPixel d * ((FR - FL : ℤ) : ℚ) := by
  have hs : startBin d p ∈ scannedRows d p :=
    (mem_scannedRows d p h _).mpr ⟨le_refl _, h⟩
  refine ⟨(scannedRows d p).foldl (farLeftStep d) int64Max,
    (scannedRows d p).foldl (farRightStep d) int64Min, ⟨?_, ?_⟩, ⟨?_, ?_⟩, ?_⟩
  · rcases foldl_farLeftStep_attained d (scannedRows d p) int64Max with ha | ⟨i, hi, hEq⟩
    · exfalso
      have hub := foldl_farLeftStep_le_mem d (scannedRows d p) int64Max _ hs
      rw [ha] at hub
      exact absurd (rowScan_fst_lt_int64Max d (startBin d p) hw) (not_lt.mpr hub)
    · exact ⟨i, ((mem_scannedRows d p h i).mp hi).1, ((mem_scannedRows d p h i).mp hi).2, hEq⟩
  · rintro z ⟨i, hi1, hi2, rfl⟩
    exact foldl_farLeftStep_le_mem d _ _ i ((mem_scannedRows d p h i).mpr ⟨hi1, hi2⟩)
  · rcases foldl_farRightStep_attained d (scannedRows d p) int64Min with ha | ⟨i, hi, hEq⟩
    · exfalso
      have hub := le_foldl_farRightStep_mem d (scannedRows d p) int64Min _ hs
      rw [ha] at hub
      exact absurd (int64Min_lt_rowScan_snd d (startBin d p)) (not_lt.mpr hub)
    · exact ⟨i, ((mem_scannedRows d p h i).mp hi).1, ((mem_scannedRows d p h i).mp hi).2, hEq⟩
  · rintro z ⟨i, hi1, hi2, rfl⟩
    exact le_foldl_farRightStep_mem d _ _ i ((mem_scannedRows d p h i).mpr ⟨hi1, hi2⟩)
  · exact refreshValid_scalar d p

/-- Witness for C2 at a concrete input. -/
theorem scalar_is_envelope_witness :
    startBin eZero pMid ≤ endBin eZero pMid ∧ eZero.width < 2 ^ 63 ∧
    (∃ FL FR : ℤ,
      IsLeast {z : ℤ | ∃ i : ℕ, startBin eZero pMid ≤ i ∧ i ≤ endBin eZero pMid ∧
        z = (rowScan eZero i).1} FL ∧
      IsGreatest {z : ℤ | ∃ i : ℕ, startBin eZero pMid ≤ i ∧ i ≤ endBin eZero pMid ∧
        z = (rowScan eZero i).2} FR ∧
      (refreshValid eZero pMid).2 = fsPerPixel eZero * ((FR - FL : ℤ) : ℚ)) := by
  have h : startBin eZero pMid ≤ endBin eZero pMid := by
    rw [startBin_eZero, endBin_eZero]
    omega
  have hw : eZero.width < 2 ^ 63 := by
    norm_num [eZero]
  exact ⟨h, hw, scalar_is_envelope eZero pMid h hw⟩

/-- Claim C10: every sample value in the emitted `widthslice` waveform is
at most the scalar `minwidth` output, since the accumulated `far_left` is
`≤` every row's `cleft` and `far_right` is `≥` every row's `cright`. -/
theorem scalar_dominates_rows (d : EyeInput) (p : Params)
    (h : startBin d p ≤ endBin d p) (hui : 0 ≤ d.m_uiWidth) :
    ∀ smp ∈ (refreshValid d p).1, smp.value ≤ (refreshValid d p).2 := by
  intro smp hsmp
  rw [refreshValid_samples] at hsmp
  rcases List.mem_map.mp hsmp with ⟨i, hi, rfl⟩
  rw [refreshValid_scalar]
  have hfs : 0 ≤ fsPerPixel d := by
    unfold fsPerPixel
    exact div_nonneg (by linarith) (Nat.cast_nonneg _)
  have hle : ((rowScan d i).2 - (rowScan d i).1 : ℤ) ≤
      (scannedRows d p).foldl (farRightStep d) int64Min -
        (scannedRows d p).foldl (farLeftStep d) int64Max :=
    sub_le_sub (le_foldl_farRightStep_mem d _ _ i hi) (foldl_farLeftStep_le_mem d _ _ i hi)
  calc (sampleFor d i).value
      = fsPerPixel d * (((rowScan d i).2 - (rowScan d i).1 : ℤ) : ℚ) := rfl
    _ ≤ fsPerPixel d *
        (((scannedRows d p).foldl (farRightStep d) int64Min -
          (scannedRows d p).foldl (farLeftStep d) int64Max : ℤ) : ℚ) :=
        mul_le_mul_of_nonneg_left (by exact_mod_cast hle) hfs

/-- Witness for C10 at a concrete input. -/
theorem scalar_dominates_rows_witness :
    startBin eZero pMid ≤ endBin eZero pMid ∧ (0 : ℚ) ≤ eZero.m_uiWidth ∧
    ∀ smp ∈ (refreshValid eZero pMid).1, smp.value ≤ (refreshValid eZero pMid).2 := by
  have h : startBin eZero pMid ≤ endBin eZero pMid := by
    rw [startBin_eZero, endBin_eZero]
    omega
  have hui : (0 : ℚ) ≤ eZero.m_uiWidth := by
    norm_num [eZero]
  exact ⟨h, hui, scalar_dominates_rows eZero pMid h hui⟩

/-- Claim C5 (amended): the sparse output has exactly
`end_bin − start_bin + 1` samples, the `k`-th being the sample of row
`start_bin + k` (offset `round(i·volts_per_row_mV + bottom_mV)`, duration
`round(volts_per_row_mV)`), and the offsets are ordered nondecreasingly;
strict ordering can fail when a voltage row is narrower than 1 mV. -/
theorem sparse_output_shape (d : EyeInput) (p : Params)
    (h : startBin d p ≤ endBin d p) (hv : 0 ≤ d.voltageRange) :
    (refreshValid d p).1.length = endBin d p - startBin d p + 1 ∧
    (∀ k, k < (refreshValid d p).1.length →
      (refreshValid d p).1.getD k { offset := 0, duration := 0, value := 0 }
        = sampleFor d (startBin d p + k)) ∧
    List.Pairwise (fun a b : ℤ => a ≤ b)
      ((refreshValid d p).1.map SparseSample.offset) := by
  refine ⟨?_, ?_, ?_⟩
  · rw [refreshValid_samples]
    unfold scannedRows
    rw [List.length_map, List.length_range']
    omega
  · intro k hk
    rw [refreshValid_samples] at hk ⊢
    unfold scannedRows at hk ⊢
    rw [List.length_map, List.length_range'] at hk
    have hlen : k <
        ((List.range' (startBin d p) (endBin d p + 1 - startBin d p)).map (sampleFor d)).length := by
      rw [List.length_map, List.length_range']
      exact hk
    rw [List.getD_eq_getElem _ _ hlen, List.getElem_map, List.getElem_range']
    congr 1
    omega
  · rw [refreshValid_samples, List.map_map]
    have hd : 0 ≤ durationMv d := by
      unfold durationMv voltsPerRow
      have := div_nonneg hv (Nat.cast_nonneg (α := ℚ) d.height)
      linarith
    have hmono : ∀ a b : ℕ, a < b →
        (SparseSample.offset ∘ sampleFor d) a ≤ (SparseSample.offset ∘ sampleFor d) b := by
      intro a b hab
      simp only [Function.comp_apply, sampleFor]
      apply roundC_mono
      have hcast : (a : ℚ) ≤ (b : ℚ) := by
        exact_mod_cast hab.le
      have := mul_le_mul_of_nonneg_right hcast hd
      linarith
    refine List.Pairwise.map _ hmono ?_
    unfold scannedRows
    exact List.pairwise_lt_range' _ _

/-- Witness for C5 at a concrete input. -/
theorem sparse_output_shape_witness :
    startBin eZero pMid ≤ endBin eZero pMid ∧ (0 : ℚ) ≤ eZero.voltageRange ∧
    ((refreshValid eZero pMid).1.length = endBin eZero pMid - startBin eZero pMid + 1 ∧
    (∀ k, k < (refreshValid eZero pMid).1.length →
      (refreshValid eZero pMid).1.getD k { offset := 0, duration := 0, value := 0 }
        = sampleFor eZero (startBin eZero pMid + k)) ∧
    List.Pairwise (fun a b : ℤ => a ≤ b)
      ((refreshValid eZero pMid).1.map SparseSample.offset)) := by
  have h : startBin eZero pMid ≤ endBin eZero pMid := by
    rw [startBin_eZero, endBin_eZero]
    omega
  have hv : (0 : ℚ) ≤ eZero.voltageRange := by
    norm_num [eZero]
  exact ⟨h, hv, sparse_output_shape eZero pMid h hv⟩

/-- Claim C9 (amended): when, in every scanned row, every column is
occupied except the center column (width ≥ 4 so the flanking columns are
scanned), each row's closure pair is `(center − 1, center + 1)` — an
opening of 2 columns — and the scalar output equals exactly two columns'
time width, `2 × time_per_column`. -/
theorem all_but_center_two_columns (d : EyeInput) (p : Params)
    (hxc : 2 ≤ d.width / 2) (hw : d.width < 2 ^ 63)
    (h : startBin d p ≤ endBin d p)
    (hocc : ∀ i, i ≤ endBin d p → startBin d p ≤ i →
      (∀ x, x < d.width → x ≠ d.width / 2 → occupied d i x) ∧
        ¬ occupied d i (d.width / 2)) :
    (∀ i, i ≤ endBin d p → startBin d p ≤ i →
      rowScan d i = (((d.width / 2 - 1 : ℕ) : ℤ), ((d.width / 2 + 1 : ℕ) : ℤ))) ∧
    (refreshValid d p).2 = fsPerPixel d * 2 := by
  have hrow : ∀ i, i ≤ endBin d p → startBin d p ≤ i →
      rowScan d i = (((d.width / 2 - 1 : ℕ) : ℤ), ((d.width / 2 + 1 : ℕ) : ℤ)) := by
    intro i hiu hil
    obtain ⟨hall, hcen⟩ := hocc i hiu hil
    have h2xc : 2 * (d.width / 2) ≤ d.width := by omega
    have hL : IsClosureLeft d i ((d.width / 2 - 1 : ℕ) : ℤ) := by
      constructor
      · exact Or.inr ⟨d.width / 2 - 1, rfl, by omega, by omega,
          hall (d.width / 2 - 1) (by omega) (by omega)⟩
      · intro x hx1 hx2 hxo
        have hne : x ≠ d.width / 2 := by
          intro hEq
          exact hcen (hEq ▸ hxo)
        have hle : x ≤ d.width / 2 - 1 := by omega
        exact_mod_cast hle
    have hR : IsClosureRight d i ((d.width / 2 + 1 : ℕ) : ℤ) := by
      constructor
      · exact Or.inr ⟨d.width / 2 + 1, rfl, by omega, by omega,
          hall (d.width / 2 + 1) (by omega) (by omega)⟩
      · intro x hx1 hx2 hxo
        have hne : x ≠ d.width / 2 := by
          intro hEq
          exact hcen (hEq ▸ hxo)
        have hle : d.width / 2 + 1 ≤ x := by omega
        exact_mod_cast hle
    have e1 := closureLeft_unique d i _ _ (rowScan_closureLeft d i) hL
    have e2 := closureRight_unique d i _ _ (rowScan_closureRight d i) hR
    rw [Prod.ext_iff]
    exact ⟨e1, e2⟩
  refine ⟨hrow, ?_⟩
  have hs : startBin d p ∈ scannedRows d p :=
    (mem_scannedRows d p h _).mpr ⟨le_refl _, h⟩
  have hsrow1 : (rowScan d (startBin d p)).1 = ((d.width / 2 - 1 : ℕ) : ℤ) := by
    rw [hrow (startBin d p) h (le_refl _)]
  have hsrow2 : (rowScan d (startBin d p)).2 = ((d.width / 2 + 1 : ℕ) : ℤ) := by
    rw [hrow (startBin d p) h (le_refl _)]
  have hFL : (scannedRows d p).foldl (farLeftStep d) int64Max
      = ((d.width / 2 - 1 : ℕ) : ℤ) := by
    rcases foldl_farLeftStep_attained d (scannedRows d p) int64Max with ha | ⟨j, hj, hEq⟩
    · exfalso
      have hub := foldl_farLeftStep_le_mem d (scannedRows d p) int64Max _ hs
      rw [ha, hsrow1] at hub
      unfold int64Max at hub
      omega
    · have hjb := (mem_scannedRows d p h j).mp hj
      rw [hEq, hrow j hjb.2 hjb.1]
  have hFR : (scannedRows d p).foldl (farRightStep d) int64Min
      = ((d.width / 2 + 1 : ℕ) : ℤ) := by
    rcases foldl_farRightStep_attained d (scannedRows d p) int64Min with ha | ⟨j, hj, hEq⟩
    · exfalso
      have hub := le_foldl_farRightStep_mem d (scannedRows d p) int64Min _ hs
      rw [ha, hsrow2] at hub
      unfold int64Min at hub
      omega
    · have hjb := (mem_scannedRows d p h j).mp hj
      rw [hEq, hrow j hjb.2 hjb.1]
  rw [refreshValid_scalar, hFL, hFR]
  have hdiff : ((d.width / 2 + 1 : ℕ) : ℤ) - ((d.width / 2 - 1 : ℕ) : ℤ) = 2 := by
    omega
  rw [hdiff]
  norm_num

/-- Witness for C9 at a concrete input: the all-but-center raster. -/
theorem all_but_center_two_columns_witness :
    (2 ≤ eScenC.width / 2 ∧ eScenC.width < 2 ^ 63 ∧
      startBin eScenC pZero ≤ endBin eScenC pZero ∧
      (∀ i, i ≤ endBin eScenC pZero → startBin eScenC pZero ≤ i →
        (∀ x, x < eScenC.width → x ≠ eScenC.width / 2 → occupied eScenC i x) ∧
          ¬ occupied eScenC i (eScenC.width / 2))) ∧
    ((∀ i, i ≤ endBin eScenC pZero → startBin eScenC pZero ≤ i →
      rowScan eScenC i = (((eScenC.width / 2 - 1 : ℕ) : ℤ), ((eScenC.width / 2 + 1 : ℕ) : ℤ))) ∧
    (refreshValid eScenC pZero).2 = fsPerPixel eScenC * 2) := by
  have hxc : 2 ≤ eScenC.width / 2 := by
    norm_num [eScenC]
  have hw : eScenC.width < 2 ^ 63 := by
    norm_num [eScenC]
  have h : startBin eScenC pZero ≤ endBin eScenC pZero := by
    rw [startBin_eScenC, endBin_eScenC]
  have hocc : ∀ i, i ≤ endBin eScenC pZero → startBin eScenC pZero ≤ i →
      (∀ x, x < eScenC.width → x ≠ eScenC.width / 2 → occupied eScenC i x) ∧
        ¬ occupied eScenC i (eScenC.width / 2) := by
    intro i hiu _
    rw [endBin_eScenC] at hiu
    interval_cases i
    exact ⟨eScenC_occupied, eScenC_center_not⟩
  exact ⟨⟨hxc, hw, h, hocc⟩, all_but_center_two_columns eScenC pZero hxc hw h hocc⟩

end EyeWidthMeasurement
